import Mathlib

/-!
Shallow embedding of CapCruncher's fastq deduplication pipeline:
`src/ccanalyser/cli/fastq_deduplicate.py` (the `parse` / `identify` / `remove`
subcommands) and `src/capturec/split_fastq.py`.

Hashes are modelled as strings (they are string keys/values of json objects in
the program).  Python dicts are modelled as association lists in insertion
order; Python sets as `Finset`.
-/

/-- Hashed read identifier (string key of the json mapping). -/
abbrev IdHash := String

/-- Hashed concatenated sequence (string value of the json mapping). -/
abbrev SeqHash := String

/-- A parsed HashMapping artifact: the json object `{READ_NAME_HASH: SEQUENCE_HASH}`
in its (insertion-ordered) iteration order.  A json object has no duplicate keys;
where a claim needs that fact it appears as an explicit hypothesis. -/
abbrev HashMapping := List (IdHash × SeqHash)

/-- Python dict assignment `m[k] = v` on the inverted dict: overwrite in place if
the key is already present (keeping its position), otherwise append the new
binding at the end. -/
def dictInsert (m : List (SeqHash × IdHash)) (k : SeqHash) (v : IdHash) :
    List (SeqHash × IdHash) :=
  if k ∈ m.map Prod.fst then m.map fun p => if p.1 = k then (k, v) else p
  else m ++ [(k, v)]

/-- Modelled from the spec: `invert_dict` (ccanalyser.utils, not in the sources)
builds the inverted mapping SequenceHash → IdentityHash from a loaded artifact;
spec §9 records that the source inversion is "last write wins" over the dict's
iteration order. -/
def invert_dict (d : HashMapping) : List (SeqHash × IdHash) :=
  d.foldl (fun m e => dictInsert m e.2 e.1) []

/-- Python `dict.update`: apply the bindings of `new` over `m`, in `new`'s
iteration order. -/
def dictUpdate (m new : List (SeqHash × IdHash)) : List (SeqHash × IdHash) :=
  new.foldl (fun m e => dictInsert m e.1 e.2) m

/-- The `dedup_sequences` dict after `identify`'s merge loop:
`dedup_sequences.update(invert_dict(d))` for each loaded artifact in turn. -/
def mergeInverted (files : List HashMapping) : List (SeqHash × IdHash) :=
  files.foldl (fun m d => dictUpdate m (invert_dict d)) []

/-- The `read_ids` set after `identify`'s merge loop: `read_ids.update(d)` adds
the keys of every loaded artifact. -/
def allReadIds (files : List HashMapping) : Finset IdHash :=
  (files.foldr (fun d acc => d.map Prod.fst ++ acc) []).toFinset

/-- `set(dedup_sequences.values())`: the representative identity hashes, one per
sequence hash key of the merged inverted dict. -/
def representativeIds (files : List HashMapping) : Finset IdHash :=
  ((mergeInverted files).map Prod.snd).toFinset

/-- The key set of the duplicates json written by `identify`:
`duplicated_ids = read_ids - set(dedup_sequences.values())`, dumped as
`dict.fromkeys(duplicated_ids)`. -/
def identifyDupIds (files : List HashMapping) : Finset IdHash :=
  allReadIds files \ representativeIds files

/-- `identify` lines 85–89: `np.random.shuffle(np.array(input_files))` builds a
fresh array from `input_files` and permutes that copy in place;
`shuffledCopy` is the permuted copy, which the rest of the function never
reads — the `for fn in input_files` loop iterates `input_files` itself. -/
def identifyShuffled (shuffledCopy : List HashMapping)
    (input_files : List HashMapping) : Finset IdHash :=
  identifyDupIds input_files

/-- A mapping artifact on disk, abstracted to its parse outcome: `some m` if it
decodes to the mapping `m`, `none` if it is corrupt. -/
abbrev Artifact := Option HashMapping

/-- Decoding failure of a persisted mapping artifact (spec §7). -/
inductive MappingCorruptError where
  | corrupt
deriving DecidableEq

/-- Modelled from the spec: `load_json` (ccanalyser.utils, not in the sources);
per spec §4.3/§7 decoding a corrupt artifact raises instead of returning. -/
def load_json (a : Artifact) : Except MappingCorruptError HashMapping :=
  match a with
  | some m => .ok m
  | none => .error .corrupt

/-- `identify`'s `for fn in input_files` loading loop: load each artifact in
turn, aborting at the first decoding failure. -/
def loadAllMappings : List Artifact → Except MappingCorruptError (List HashMapping)
  | [] => .ok []
  | a :: rest =>
    match load_json a with
    | .error e => .error e
    | .ok m =>
      match loadAllMappings rest with
      | .error e => .error e
      | .ok ms => .ok (m :: ms)

/-- `identify` with fallible artifact loading: the duplicates output file is
opened (`with xopen(output, "w")`) and written only after the loop has loaded
every artifact; an error result means nothing was written. -/
def identifyFromArtifacts (files : List Artifact) :
    Except MappingCorruptError (Finset IdHash) :=
  match loadAllMappings files with
  | .error e => .error e
  | .ok ms => .ok (identifyDupIds ms)

/-- One sequencing read of a fastq file (spec §3 ReadRecord). -/
structure FastqRead where
  name : String
  sequence : String
  quality : String
deriving DecidableEq, Inhabited

/-- An ordered group of reads, one per input file, all from the same positional
offset (spec §3 ReadTuple). -/
abbrev ReadTuple := List FastqRead

/-- Input files of unequal record count (spec §7). -/
inductive InputMismatchError where
  | mismatch
deriving DecidableEq

/-- Modelled from the spec: `FastqReaderProcess` (ccanalyser.tools.io, not in the
sources); per spec §4.1 it reads N input files in lockstep, emitting one
ReadTuple per position, and fails with `InputMismatchError` when any input file
is exhausted while others still have records. -/
def readTuples (files : List (List FastqRead)) :
    Except InputMismatchError (List ReadTuple) :=
  if files.all List.isEmpty then .ok []
  else if files.any List.isEmpty then .error .mismatch
  else
    match readTuples (files.map List.tail) with
    | .error e => .error e
    | .ok rest => .ok (files.filterMap List.head? :: rest)
termination_by (files.headD []).length
decreasing_by
  rename_i h1 h2
  cases files with
  | nil => exact absurd List.all_nil h1
  | cons f fs =>
    have hf : f ≠ [] := by
      intro h
      exact h2 (by simp [h])
    simp only [List.map_cons, List.headD_cons]
    cases f with
    | nil => exact absurd rfl hf
    | cons a as => simp

/-- The identity hash of a tuple, recomputed by the remover from the first
read's name (spec §3: IdentityHash is computed from the first ReadRecord's
identifier).  The hash function itself lives outside the sources and is kept
abstract as a parameter. -/
def tupleIdHash (hash : String → IdHash) (t : ReadTuple) : IdHash :=
  hash (t.headD default).name

/-- The remover's keep-test for one tuple: forwarded iff its identity hash is
not in the duplicates set. -/
def removerKeep (hash : String → IdHash) (dup : Finset IdHash) (t : ReadTuple) :
    Bool :=
  if tupleIdHash hash t ∈ dup then false else true

/-- The reader's batching: group a stream into consecutive batches of at most
`B` tuples (spec §4.1; `read_buffer` in the source).  A batch size of 0 is
degenerate and yields the whole stream as one batch. -/
def batchChunks : Nat → List α → List (List α)
  | _, [] => []
  | 0, a :: as => [a :: as]
  | b + 1, a :: as => (a :: as).take (b + 1) :: batchChunks (b + 1) ((a :: as).drop (b + 1))
termination_by _ l => l.length
decreasing_by
  simp only [List.drop_succ_cons, List.length_cons, List.length_drop]
  omega

/-- Modelled from the spec: `ReadDuplicateRemovalProcess` followed by
`FastqWriterProcess` (ccanalyser.tools, not in the sources); per spec §4.4/§4.5
the remover consumes the reader's batches in order, drops exactly the tuples
whose identity hash is in the duplicates set, and the writer concatenates the
surviving batches in arrival order. -/
def removeSurvivors (hash : String → IdHash) (dup : Finset IdHash) (B : Nat)
    (tuples : List ReadTuple) : List ReadTuple :=
  ((batchChunks B tuples).map (List.filter (removerKeep hash dup))).flatten

/-- The record stream the writer appends to output file `k`: the `k`-th member
of each surviving tuple, in order (spec §4.5). -/
def writtenFile (hash : String → IdHash) (dup : Finset IdHash) (B : Nat)
    (tuples : List ReadTuple) (k : Nat) : List FastqRead :=
  (removeSurvivors hash dup B tuples).map fun t => t.getD k default

/-- State of the `remove` pipeline: batches the reader has not yet sent, the
two FIFO queues (`inputq`, `writeq` in the source), and the records already
written. -/
structure PipeState where
  toRead : List (List ReadTuple)
  inq : List (List ReadTuple)
  outq : List (List ReadTuple)
  written : List ReadTuple

/-- One step of one stage of the `remove` pipeline (spec §5): the reader moves
its next batch onto `inputq`; the remover takes the head of `inputq`, filters
it, and appends the result to `writeq`; the writer takes the head of `writeq`
and appends its tuples to the output. -/
inductive PipeStep (keep : ReadTuple → Bool) : PipeState → PipeState → Prop
  | read (b : List ReadTuple) (rest inq outq : List (List ReadTuple))
      (w : List ReadTuple) :
      PipeStep keep ⟨b :: rest, inq, outq, w⟩ ⟨rest, inq ++ [b], outq, w⟩
  | dedup (tr : List (List ReadTuple)) (b : List ReadTuple)
      (rest outq : List (List ReadTuple)) (w : List ReadTuple) :
      PipeStep keep ⟨tr, b :: rest, outq, w⟩ ⟨tr, rest, outq ++ [b.filter keep], w⟩
  | write (tr inq : List (List ReadTuple)) (b : List ReadTuple)
      (rest : List (List ReadTuple)) (w : List ReadTuple) :
      PipeStep keep ⟨tr, inq, b :: rest, w⟩ ⟨tr, inq, rest, w ++ b⟩

/-- A scheduled execution of the `remove` pipeline: any finite interleaving of
stage steps. -/
def PipeRun (keep : ReadTuple → Bool) : PipeState → PipeState → Prop :=
  Relation.ReflTransGen (PipeStep keep)

/-- The pipeline has drained: nothing left to read and both queues empty. -/
def pipeDone (s : PipeState) : Prop :=
  s.toRead = [] ∧ s.inq = [] ∧ s.outq = []

/-- The initial state of a `remove` run over a given batch sequence. -/
def pipeInit (bs : List (List ReadTuple)) : PipeState :=
  ⟨bs, [], [], []⟩

/-- Conserved stream of a pipeline state: what is already written, followed by
what each remaining stage will contribute. -/
def pipeStream (keep : ReadTuple → Bool) (s : PipeState) : List ReadTuple :=
  s.written ++ s.outq.flatten ++ s.inq.flatten.filter keep
    ++ s.toRead.flatten.filter keep

/-- The per-batch statistics counters emitted by the remover on its statistics
queue (spec §4.4: a "duplicate" counter and a "unique" counter per batch, plus
the batch's total).  Modelled from the spec: `ReadDuplicateRemovalProcess` and
`DeduplicationStatistics` (ccanalyser.tools, not in the sources). -/
structure DedupStats where
  reads_total : Nat
  reads_removed : Nat
  reads_unique : Nat
deriving DecidableEq

/-- Counters for one batch processed by the remover. -/
def batchStats (keep : ReadTuple → Bool) (b : List ReadTuple) : DedupStats :=
  { reads_total := b.length
    reads_removed := (b.filter fun t => !keep t).length
    reads_unique := (b.filter keep).length }

/-- `Counter.update`: additive merge of two counter records, key by key. -/
def addStats (x y : DedupStats) : DedupStats :=
  { reads_total := x.reads_total + y.reads_total
    reads_removed := x.reads_removed + y.reads_removed
    reads_unique := x.reads_unique + y.reads_unique }

/-- The `stats_aggregator` loop of `remove`: drain the statistics queue until
the END sentinel, summing every counter record additively. -/
def aggregateStats (l : List DedupStats) : DedupStats :=
  l.foldl addStats ⟨0, 0, 0⟩

/-- The final aggregated statistics of a `remove` run whose remover processed
the given batches. -/
def removeRunStats (keep : ReadTuple → Bool) (batches : List (List ReadTuple)) :
    DedupStats :=
  aggregateStats (batches.map (batchStats keep))

/-- Outcome of `split_fastq.main`: the output files in creation order (name and
written records), and the error the run ends with, if any. -/
structure SplitResult where
  files : List (String × List String)
  err : Option String
deriving DecidableEq

/-- The loop body of `split_fastq.main` over the remaining reads, carrying the
read counter, split counter, files closed so far, and the open handle (name and
contents written to it), `none` when `out_handle` is still unbound. -/
def splitGo (chunksize : Nat) (pref : String) :
    List String → Nat → Nat → List (String × List String) →
    Option (String × List String) →
    List (String × List String) × Option (String × List String)
  | [], _, _, closed, cur => (closed, cur)
  | r :: rest, rc, sc, closed, cur =>
    if rc = 0 then
      splitGo chunksize pref rest (rc + 1) sc closed
        (some (pref ++ "_0.fastq.gz", [r]))
    else if rc % chunksize = 0 then
      splitGo chunksize pref rest (rc + 1) (sc + 1)
        (closed ++ [cur.getD ("", [])])
        (some (pref ++ "_" ++ toString (sc + 1) ++ ".fastq.gz", [r]))
    else
      splitGo chunksize pref rest (rc + 1) sc closed
        (cur.map fun h => (h.1, h.2 ++ [r]))

/-- `split_fastq.main`: iterate the reads, then execute the final
`out_handle.close()`, which raises an unbound-variable error when the loop
never ran (the handle is only ever bound inside the loop). -/
def splitMain (chunksize : Nat) (pref : String) (reads : List String) :
    SplitResult :=
  match splitGo chunksize pref reads 0 0 [] none with
  | (closed, none) => { files := closed, err := some "UnboundLocalError" }
  | (closed, some h) => { files := closed ++ [h], err := none }

/-- A concrete read used by the concrete-input witnesses. -/
def sampleRead : FastqRead :=
  { name := "read1", sequence := "ACGT", quality := "IIII" }

/-- Concrete identity hashes of the four-pair end-to-end scenario (spec §8). -/
def wIds : Fin 4 → String := fun n => ["ra", "rb", "rc", "rd"].getD n.val ""

/-- Concrete sequence hashes of the four-pair end-to-end scenario (spec §8):
pair 2 and pair 4 are sequence-duplicates of each other. -/
def wSeqs : Fin 4 → String := fun n => ["s1", "s2", "s3", "s2"].getD n.val ""

/-!  Theorems.  -/

/-- C10: on an empty input fastq, `split_fastq.main` writes no output file and
then fails with an unbound-variable error at the final `out_handle.close()`. -/
theorem split_fastq_empty_input_unbound_handle (chunksize : Nat) (pref : String) :
    (splitMain chunksize pref []).files = []
      ∧ (splitMain chunksize pref []).err = some "UnboundLocalError" :=
  ⟨rfl, rfl⟩

theorem filter_not_length_add_filter_length (keep : α → Bool) (b : List α) :
    (b.filter fun t => !keep t).length + (b.filter keep).length = b.length := by
  induction b with
  | nil => rfl
  | cons a as ih =>
    by_cases h : keep a <;> simp [List.filter_cons, h] <;> omega

theorem aggregateStats_foldl_invariant (l : List DedupStats) :
    ∀ acc : DedupStats,
      (∀ x ∈ l, x.reads_removed + x.reads_unique = x.reads_total) →
      acc.reads_removed + acc.reads_unique = acc.reads_total →
      (l.foldl addStats acc).reads_removed + (l.foldl addStats acc).reads_unique
        = (l.foldl addStats acc).reads_total := by
  induction l with
  | nil => intro acc _ hacc; exact hacc
  | cons x xs ih =>
    intro acc hl hacc
    refine ih (addStats acc x) (fun y hy => hl y (List.mem_cons_of_mem x hy)) ?_
    have hx := hl x (List.mem_cons_self x xs)
    simp only [addStats]
    omega

/-- C3: the final aggregated statistics of every `remove` run satisfy
removed + retained = total seen; every tuple is counted exactly once, and the
aggregator sums the per-batch counters additively. -/
theorem remove_stats_partition (keep : ReadTuple → Bool)
    (batches : List (List ReadTuple)) :
    (removeRunStats keep batches).reads_removed
        + (removeRunStats keep batches).reads_unique
      = (removeRunStats keep batches).reads_total := by
  refine aggregateStats_foldl_invariant _ _ ?_ rfl
  intro x hx
  rcases List.mem_map.mp hx with ⟨b, _, rfl⟩
  exact filter_not_length_add_filter_length keep b

/-- C1 (counterexample evaluation): `identify` merges the inverted mappings
with last-write-wins, so permuting `input_files` changes which identity hash is
kept as representative, and hence changes the DuplicateSet. -/
theorem identify_merge_order_changes_output :
    identifyDupIds [[("id1", "s")], [("id2", "s")]] = {"id1"}
      ∧ identifyDupIds [[("id2", "s")], [("id1", "s")]] = {"id2"}
      ∧ identifyDupIds [[("id1", "s")], [("id2", "s")]]
          ≠ identifyDupIds [[("id2", "s")], [("id1", "s")]] := by
  refine ⟨?_, ?_, ?_⟩ <;> decide

/-- C9: the `np.random.shuffle` call in `identify` permutes a fresh array copy
and never mutates `input_files`, so the output does not depend on the shuffle
outcome — two runs on the same argument list agree — even though permuting the
argument list itself may change the output. -/
theorem identify_shuffle_dead_but_argument_order_matters :
    (∀ (c₁ c₂ : List HashMapping) (files : List HashMapping),
        identifyShuffled c₁ files = identifyShuffled c₂ files)
      ∧ (∃ l₁ l₂ c : List HashMapping, l₁.Perm l₂
          ∧ identifyShuffled c l₁ ≠ identifyShuffled c l₂) := by
  constructor
  · intro c₁ c₂ files
    rfl
  · refine ⟨[[("x1", "q")], [("x2", "q")]], [[("x2", "q")], [("x1", "q")]], [], ?_, ?_⟩
    · exact List.Perm.swap _ _ _
    · decide

theorem loadAllMappings_map_some (ms : List HashMapping) :
    loadAllMappings (ms.map some) = .ok ms := by
  induction ms with
  | nil => rfl
  | cons m rest ih => simp [loadAllMappings, load_json, ih]

theorem loadAllMappings_corrupt (files : List Artifact)
    (h : ∃ a ∈ files, a = none) :
    loadAllMappings files = .error .corrupt := by
  induction files with
  | nil => simp at h
  | cons a rest ih =>
    rcases h with ⟨b, hb, hnone⟩
    rcases List.mem_cons.mp hb with rfl | hmem
    · simp [hnone, loadAllMappings, load_json]
    · cases a with
      | none => simp [loadAllMappings, load_json]
      | some m => simp [loadAllMappings, load_json, ih ⟨b, hmem, hnone⟩]

/-- C8: `identify` aborts with an error before writing any output if any input
artifact cannot be parsed (the output is opened only after the loading loop),
and when every artifact parses it computes the DuplicateSet of all of them —
no shard is silently dropped. -/
theorem identify_aborts_on_corrupt_shard :
    (∀ files : List Artifact, (∃ a ∈ files, a = none) →
        identifyFromArtifacts files = .error .corrupt)
      ∧ (∀ ms : List HashMapping,
          identifyFromArtifacts (ms.map some) = .ok (identifyDupIds ms)) := by
  constructor
  · intro files h
    simp [identifyFromArtifacts, loadAllMappings_corrupt files h]
  · intro ms
    simp [identifyFromArtifacts, loadAllMappings_map_some ms]

/-- Concrete witness for C8: one corrupt artifact aborts the identification. -/
theorem identify_aborts_on_corrupt_shard_witness :
    (∃ a ∈ ([some [("a", "s")], none] : List Artifact), a = none)
      ∧ identifyFromArtifacts [some [("a", "s")], none] = .error .corrupt :=
  ⟨⟨none, by simp, rfl⟩,
    identify_aborts_on_corrupt_shard.1 _ ⟨none, by simp, rfl⟩⟩

theorem readTuples_all_length (n : Nat) :
    ∀ files : List (List FastqRead), files ≠ [] →
      (∀ f ∈ files, f.length = n) →
      ∃ ts, readTuples files = .ok ts ∧ ts.length = n := by
  induction n with
  | zero =>
    intro files _ hlen
    have hall : files.all List.isEmpty = true := by
      simp only [List.all_eq_true, List.isEmpty_iff]
      intro f hf
      exact List.eq_nil_of_length_eq_zero (hlen f hf)
    refine ⟨[], ?_, rfl⟩
    rw [readTuples]
    simp [hall]
  | succ n ih =>
    intro files hne hlen
    have hnotall : ¬files.all List.isEmpty = true := by
      simp only [List.all_eq_true, List.isEmpty_iff]
      intro h
      rcases List.exists_mem_of_ne_nil files hne with ⟨f, hf⟩
      have := hlen f hf
      rw [h f hf] at this
      simp at this
    have hnotany : ¬files.any List.isEmpty = true := by
      simp only [List.any_eq_true, List.isEmpty_iff]
      rintro ⟨f, hf, rfl⟩
      simpa using hlen [] hf
    have htne : files.map List.tail ≠ [] := by
      simpa using hne
    have htlen : ∀ f ∈ files.map List.tail, f.length = n := by
      intro f hf
      rcases List.mem_map.mp hf with ⟨g, hg, rfl⟩
      have := hlen g hg
      simp [List.length_tail, this]
    rcases ih (files.map List.tail) htne htlen with ⟨ts, hts, hlen'⟩
    refine ⟨files.filterMap List.head? :: ts, ?_, by simp [hlen']⟩
    rw [readTuples]
    simp [hnotall, hnotany, hts]

theorem readTuples_mismatch :
    ∀ files : List (List FastqRead),
      (∃ f ∈ files, ∃ g ∈ files, f.length ≠ g.length) →
      readTuples files = .error .mismatch := by
  suffices key : ∀ (m : Nat) (files : List (List FastqRead)),
      (files.headD []).length ≤ m →
      (∃ f ∈ files, ∃ g ∈ files, f.length ≠ g.length) →
      readTuples files = .error .mismatch by
    intro files h
    exact key _ files le_rfl h
  intro m
  induction m using Nat.strong_induction_on with
  | _ m ihm =>
  intro files hm h
  rcases h with ⟨f, hf, g, hg, hfg⟩
  have hnotall : ¬files.all List.isEmpty = true := by
    simp only [List.all_eq_true, List.isEmpty_iff]
    intro hall
    rw [hall f hf, hall g hg] at hfg
    exact hfg rfl
  by_cases hany : files.any List.isEmpty = true
  · rw [readTuples]
    simp [hnotall, hany]
  · have hne : files ≠ [] := by
      rintro rfl
      simp at hf
    have hnonempty : ∀ p ∈ files, p ≠ [] := by
      intro p hp hpnil
      exact hany (by simp only [List.any_eq_true]; exact ⟨p, hp, by simp [hpnil]⟩)
    have htail : ∃ a ∈ files.map List.tail, ∃ b ∈ files.map List.tail,
        a.length ≠ b.length := by
      refine ⟨f.tail, List.mem_map_of_mem _ hf, g.tail, List.mem_map_of_mem _ hg, ?_⟩
      have hf0 : f.length ≠ 0 := by
        simpa [List.length_eq_zero] using hnonempty f hf
      have hg0 : g.length ≠ 0 := by
        simpa [List.length_eq_zero] using hnonempty g hg
      simp only [List.length_tail]
      omega
    have hmeas : ((files.map List.tail).headD []).length < m := by
      rcases files with _ | ⟨p, ps⟩
      · exact absurd rfl hne
      · have hp0 : p.length ≠ 0 := by
          simpa [List.length_eq_zero] using hnonempty p (List.mem_cons_self p ps)
        simp only [List.map_cons, List.headD_cons, List.length_tail] at *
        omega
    have := ihm _ hmeas (files.map List.tail) le_rfl htail
    rw [readTuples]
    simp [hnotall, hany, this]

/-- C4: for N input files of equal record count the reader emits exactly that
many ReadTuples; if the record counts differ — one file is exhausted while
another still has records — the whole run fails with `InputMismatchError` and
produces no tuple stream. -/
theorem reader_lockstep_contract :
    (∀ (files : List (List FastqRead)) (n : Nat), files ≠ [] →
        (∀ f ∈ files, f.length = n) →
        ∃ ts, readTuples files = .ok ts ∧ ts.length = n)
      ∧ (∀ files : List (List FastqRead),
          (∃ f ∈ files, ∃ g ∈ files, f.length ≠ g.length) →
          readTuples files = .error .mismatch) :=
  ⟨fun files n => readTuples_all_length n files, readTuples_mismatch⟩

/-- Concrete witness for C4: two one-record files yield one tuple; a one-record
file paired with an empty file aborts with `InputMismatchError`. -/
theorem reader_lockstep_contract_witness :
    (([[sampleRead], [sampleRead]] : List (List FastqRead)) ≠ []
      ∧ (∀ f ∈ ([[sampleRead], [sampleRead]] : List (List FastqRead)),
          f.length = 1)
      ∧ ∃ ts, readTuples [[sampleRead], [sampleRead]] = .ok ts ∧ ts.length = 1)
      ∧ readTuples [[sampleRead], []] = .error .mismatch := by
  refine ⟨⟨by simp, by decide, ?_⟩, ?_⟩
  · exact reader_lockstep_contract.1 [[sampleRead], [sampleRead]] 1 (by simp) (by decide)
  · exact reader_lockstep_contract.2 [[sampleRead], []]
      ⟨[sampleRead], by simp, [], by simp, by simp⟩

theorem batchChunks_flatten (B : Nat) (l : List α) :
    (batchChunks B l).flatten = l := by
  suffices key : ∀ (n : Nat) (l : List α), l.length ≤ n →
      (batchChunks B l).flatten = l by
    exact key l.length l le_rfl
  intro n
  induction n with
  | zero =>
    intro l hl
    have : l = [] := List.eq_nil_of_length_eq_zero (Nat.le_zero.mp hl)
    subst this
    simp [batchChunks]
  | succ n ih =>
    intro l hl
    cases l with
    | nil => simp [batchChunks]
    | cons a as =>
      cases B with
      | zero => simp [batchChunks]
      | succ b =>
        rw [batchChunks]
        rw [List.flatten_cons]
        rw [ih ((a :: as).drop (b + 1)) (by simp at hl ⊢; omega)]
        exact List.take_append_drop (b + 1) (a :: as)

theorem flatten_map_filter (p : α → Bool) (L : List (List α)) :
    (L.map (List.filter p)).flatten = L.flatten.filter p := by
  induction L with
  | nil => rfl
  | cons b rest ih =>
    simp only [List.map_cons, List.flatten_cons, List.filter_append, ih]

theorem removeSurvivors_eq_filter (hash : String → IdHash) (dup : Finset IdHash)
    (B : Nat) (tuples : List ReadTuple) :
    removeSurvivors hash dup B tuples = tuples.filter (removerKeep hash dup) := by
  unfold removeSurvivors
  rw [flatten_map_filter, batchChunks_flatten]

/-- C5: for each output file, `remove` writes exactly the subsequence of that
input file's records whose tuple's identity hash is not in the DuplicateSet, in
the input's relative order — a stable filter, whatever the batch size. -/
theorem remove_stable_filter (hash : String → IdHash) (dup : Finset IdHash)
    (B : Nat) (tuples : List ReadTuple) (k : Nat) :
    writtenFile hash dup B tuples k
        = (tuples.filter fun t => tupleIdHash hash t ∉ dup).map
            (fun t => t.getD k default)
      ∧ (writtenFile hash dup B tuples k).Sublist
          (tuples.map fun t => t.getD k default) := by
  have hkeep : (removerKeep hash dup) = fun t => decide (tupleIdHash hash t ∉ dup) := by
    funext t
    by_cases h : tupleIdHash hash t ∈ dup <;> simp [removerKeep, h]
  constructor
  · rw [writtenFile, removeSurvivors_eq_filter, hkeep]
  · rw [writtenFile, removeSurvivors_eq_filter]
    exact List.Sublist.map _ (List.filter_sublist tuples)

theorem pipeStep_stream (keep : ReadTuple → Bool) {s s' : PipeState}
    (h : PipeStep keep s s') : pipeStream keep s' = pipeStream keep s := by
  cases h with
  | read b rest inq outq w =>
    simp [pipeStream, List.flatten_append, List.filter_append, List.append_assoc]
  | dedup tr b rest outq w =>
    simp [pipeStream, List.flatten_append, List.filter_append, List.append_assoc]
  | write tr inq b rest w =>
    simp [pipeStream, List.flatten_append, List.filter_append, List.append_assoc]

theorem pipeRun_stream (keep : ReadTuple → Bool) {s s' : PipeState}
    (h : PipeRun keep s s') : pipeStream keep s' = pipeStream keep s := by
  induction h with
  | refl => rfl
  | tail _ hstep ih => rw [pipeStep_stream keep hstep, ih]

theorem pipeDone_written (keep : ReadTuple → Bool) {s : PipeState}
    (h : pipeDone s) : pipeStream keep s = s.written := by
  rcases h with ⟨h1, h2, h3⟩
  simp [pipeStream, h1, h2, h3]

/-- C6: the `remove` pipeline is deterministic — any two complete executions
(arbitrary interleavings of the reader, remover and writer stages) over the
same batches with the same keep-test write the identical record stream, namely
the stable filter of the input. -/
theorem remove_pipeline_deterministic (keep : ReadTuple → Bool)
    (bs : List (List ReadTuple)) (s₁ s₂ : PipeState)
    (h₁ : PipeRun keep (pipeInit bs) s₁) (h₂ : PipeRun keep (pipeInit bs) s₂)
    (d₁ : pipeDone s₁) (d₂ : pipeDone s₂) :
    s₁.written = s₂.written ∧ s₁.written = bs.flatten.filter keep := by
  have init : pipeStream keep (pipeInit bs) = bs.flatten.filter keep := by
    simp [pipeStream, pipeInit]
  have e₁ : s₁.written = bs.flatten.filter keep := by
    rw [← pipeDone_written keep d₁, pipeRun_stream keep h₁, init]
  have e₂ : s₂.written = bs.flatten.filter keep := by
    rw [← pipeDone_written keep d₂, pipeRun_stream keep h₂, init]
  exact ⟨e₁.trans e₂.symm, e₁⟩

/-- Concrete witness for C6: a two-batch run executed under two different
schedules reaches the same written output. -/
theorem remove_pipeline_deterministic_witness :
    PipeRun (fun _ => true) (pipeInit [[[sampleRead]], [[sampleRead]]])
        ⟨[], [], [], [[sampleRead], [sampleRead]]⟩
      ∧ pipeDone ⟨[], [], [], [[sampleRead], [sampleRead]]⟩
      ∧ PipeState.written ⟨[], [], [], [[sampleRead], [sampleRead]]⟩
          = PipeState.written ⟨[], [], [], [[sampleRead], [sampleRead]]⟩
      ∧ PipeState.written ⟨[], [], [], [[sampleRead], [sampleRead]]⟩
          = ([[[sampleRead]], [[sampleRead]]] : List (List ReadTuple)).flatten.filter
              (fun _ => true) := by
  have run₁ : PipeRun (fun _ => true) (pipeInit [[[sampleRead]], [[sampleRead]]])
      ⟨[], [], [], [[sampleRead], [sampleRead]]⟩ :=
    Relation.ReflTransGen.head (PipeStep.read _ _ _ _ _)
      (Relation.ReflTransGen.head (PipeStep.dedup _ _ _ _ _)
        (Relation.ReflTransGen.head (PipeStep.write _ _ _ _ _)
          (Relation.ReflTransGen.head (PipeStep.read _ _ _ _ _)
            (Relation.ReflTransGen.head (PipeStep.dedup _ _ _ _ _)
              (Relation.ReflTransGen.head (PipeStep.write _ _ _ _ _)
                Relation.ReflTransGen.refl)))))
  have run₂ : PipeRun (fun _ => true) (pipeInit [[[sampleRead]], [[sampleRead]]])
      ⟨[], [], [], [[sampleRead], [sampleRead]]⟩ :=
    Relation.ReflTransGen.head (PipeStep.read _ _ _ _ _)
      (Relation.ReflTransGen.head (PipeStep.read _ _ _ _ _)
        (Relation.ReflTransGen.head (PipeStep.dedup _ _ _ _ _)
          (Relation.ReflTransGen.head (PipeStep.dedup _ _ _ _ _)
            (Relation.ReflTransGen.head (PipeStep.write _ _ _ _ _)
              (Relation.ReflTransGen.head (PipeStep.write _ _ _ _ _)
                Relation.ReflTransGen.refl)))))
  have hdone : pipeDone ⟨[], [], [], [[sampleRead], [sampleRead]]⟩ := ⟨rfl, rfl, rfl⟩
  have := remove_pipeline_deterministic (fun _ => true)
    [[[sampleRead]], [[sampleRead]]] _ _ run₁ run₂ hdone hdone
  exact ⟨run₁, hdone, this.1, this.2⟩

theorem dictInsert_mem {m : List (SeqHash × IdHash)} {k : SeqHash} {v : IdHash}
    {p : SeqHash × IdHash} (h : p ∈ dictInsert m k v) : p ∈ m ∨ p = (k, v) := by
  unfold dictInsert at h
  by_cases hk : k ∈ m.map Prod.fst
  · rw [if_pos hk] at h
    rcases List.mem_map.mp h with ⟨q, hq, rfl⟩
    by_cases hqk : q.1 = k
    · simp [hqk]
    · simp only [if_neg hqk]
      exact Or.inl hq
  · rw [if_neg hk] at h
    rcases List.mem_append.mp h with h | h
    · exact Or.inl h
    · simp only [List.mem_singleton] at h
      exact Or.inr h

theorem dictInsert_keys_overwrite {m : List (SeqHash × IdHash)} {k : SeqHash}
    (v : IdHash) (hk : k ∈ m.map Prod.fst) :
    (dictInsert m k v).map Prod.fst = m.map Prod.fst := by
  unfold dictInsert
  rw [if_pos hk, List.map_map]
  apply List.map_congr_left
  intro q _
  by_cases hqk : q.1 = k <;> simp [hqk]

theorem dictInsert_keys_mono {m : List (SeqHash × IdHash)} {k : SeqHash}
    {v : IdHash} {s : SeqHash} (h : s ∈ m.map Prod.fst) :
    s ∈ (dictInsert m k v).map Prod.fst := by
  by_cases hk : k ∈ m.map Prod.fst
  · rw [dictInsert_keys_overwrite v hk]
    exact h
  · unfold dictInsert
    rw [if_neg hk]
    simp only [List.map_append, List.mem_append]
    exact Or.inl h

theorem dictInsert_key_mem (m : List (SeqHash × IdHash)) (k : SeqHash)
    (v : IdHash) : k ∈ (dictInsert m k v).map Prod.fst := by
  by_cases hk : k ∈ m.map Prod.fst
  · rw [dictInsert_keys_overwrite v hk]
    exact hk
  · unfold dictInsert
    rw [if_neg hk]
    simp

theorem dictInsert_keys_nodup {m : List (SeqHash × IdHash)} {k : SeqHash}
    {v : IdHash} (h : (m.map Prod.fst).Nodup) :
    ((dictInsert m k v).map Prod.fst).Nodup := by
  by_cases hk : k ∈ m.map Prod.fst
  · rw [dictInsert_keys_overwrite v hk]
    exact h
  · unfold dictInsert
    rw [if_neg hk]
    simp only [List.map_append, List.map_cons, List.map_nil]
    simp [List.nodup_append, h, hk]

theorem dictUpdate_mem {new : List (SeqHash × IdHash)} :
    ∀ {m : List (SeqHash × IdHash)} {p : SeqHash × IdHash},
      p ∈ dictUpdate m new → p ∈ m ∨ p ∈ new := by
  induction new with
  | nil => intro m p h; exact Or.inl h
  | cons e rest ih =>
    intro m p h
    rcases ih h with h' | h'
    · rcases dictInsert_mem h' with h'' | h''
      · exact Or.inl h''
      · exact Or.inr (by simp [h''])
    · exact Or.inr (List.mem_cons_of_mem e h')

theorem dictUpdate_keys_mono {new : List (SeqHash × IdHash)} :
    ∀ {m : List (SeqHash × IdHash)} {s : SeqHash},
      s ∈ m.map Prod.fst → s ∈ (dictUpdate m new).map Prod.fst := by
  induction new with
  | nil => intro m s h; exact h
  | cons e rest ih =>
    intro m s h
    exact ih (dictInsert_keys_mono h)

theorem dictUpdate_keys_new {new : List (SeqHash × IdHash)} :
    ∀ {m : List (SeqHash × IdHash)} {s : SeqHash},
      s ∈ new.map Prod.fst → s ∈ (dictUpdate m new).map Prod.fst := by
  induction new with
  | nil => intro m s h; simp at h
  | cons e rest ih =>
    intro m s h
    simp only [List.map_cons, List.mem_cons] at h
    rcases h with rfl | h'
    · show e.1 ∈ (dictUpdate (dictInsert m e.1 e.2) rest).map Prod.fst
      exact dictUpdate_keys_mono (dictInsert_key_mem m e.1 e.2)
    · exact ih h'

theorem dictUpdate_keys_nodup {new : List (SeqHash × IdHash)} :
    ∀ {m : List (SeqHash × IdHash)}, (m.map Prod.fst).Nodup →
      ((dictUpdate m new).map Prod.fst).Nodup := by
  induction new with
  | nil => intro m h; exact h
  | cons e rest ih =>
    intro m h
    exact ih (dictInsert_keys_nodup h)

theorem invert_dict_eq_update (d : HashMapping) :
    invert_dict d = dictUpdate [] (d.map fun e => (e.2, e.1)) := by
  unfold invert_dict dictUpdate
  rw [List.foldl_map]

theorem invert_dict_mem {d : HashMapping} {p : SeqHash × IdHash}
    (h : p ∈ invert_dict d) : (p.2, p.1) ∈ d := by
  rw [invert_dict_eq_update] at h
  rcases dictUpdate_mem h with h' | h'
  · simp at h'
  · rcases List.mem_map.mp h' with ⟨q, hq, rfl⟩
    exact hq

theorem invert_dict_keys {d : HashMapping} {q : IdHash × SeqHash} (hq : q ∈ d) :
    q.2 ∈ (invert_dict d).map Prod.fst := by
  rw [invert_dict_eq_update]
  refine dictUpdate_keys_new ?_
  simp only [List.map_map, List.mem_map]
  exact ⟨q, hq, rfl⟩

theorem mergeInverted_from_mem {files : List HashMapping} :
    ∀ {m : List (SeqHash × IdHash)} {p : SeqHash × IdHash},
      p ∈ files.foldl (fun m d => dictUpdate m (invert_dict d)) m →
      p ∈ m ∨ ∃ d ∈ files, (p.2, p.1) ∈ d := by
  induction files with
  | nil => intro m p h; exact Or.inl h
  | cons d rest ih =>
    intro m p h
    rcases ih h with h' | h'
    · rcases dictUpdate_mem h' with h'' | h''
      · exact Or.inl h''
      · exact Or.inr ⟨d, List.mem_cons_self d rest, invert_dict_mem h''⟩
    · rcases h' with ⟨d', hd', hp⟩
      exact Or.inr ⟨d', List.mem_cons_of_mem d hd', hp⟩

theorem mergeInverted_from_keys_mono {files : List HashMapping} :
    ∀ {m : List (SeqHash × IdHash)} {s : SeqHash},
      s ∈ m.map Prod.fst →
      s ∈ (files.foldl (fun m d => dictUpdate m (invert_dict d)) m).map Prod.fst := by
  induction files with
  | nil => intro m s h; exact h
  | cons d rest ih =>
    intro m s h
    exact ih (dictUpdate_keys_mono h)

theorem mergeInverted_from_keys_seen {files : List HashMapping} :
    ∀ {m : List (SeqHash × IdHash)} {s : SeqHash},
      (∃ d ∈ files, ∃ q ∈ d, q.2 = s) →
      s ∈ (files.foldl (fun m d => dictUpdate m (invert_dict d)) m).map Prod.fst := by
  induction files with
  | nil => intro m s h; simp at h
  | cons d rest ih =>
    intro m s h
    rcases h with ⟨d', hd', q, hq, hs⟩
    rcases List.mem_cons.mp hd' with rfl | hd''
    · subst hs
      simp only [List.foldl_cons]
      exact mergeInverted_from_keys_mono (dictUpdate_keys_new (invert_dict_keys hq))
    · exact ih ⟨d', hd'', q, hq, hs⟩

theorem mergeInverted_keys_nodup (files : List HashMapping) :
    ((mergeInverted files).map Prod.fst).Nodup := by
  suffices key : ∀ (fs : List HashMapping) (m : List (SeqHash × IdHash)),
      (m.map Prod.fst).Nodup →
      ((fs.foldl (fun m d => dictUpdate m (invert_dict d)) m).map Prod.fst).Nodup by
    exact key files [] (by simp)
  intro fs
  induction fs with
  | nil => intro m h; exact h
  | cons d rest ih =>
    intro m h
    exact ih _ (dictUpdate_keys_nodup h)

theorem allReadIds_mem {files : List HashMapping} {i : IdHash} :
    i ∈ allReadIds files ↔ ∃ d ∈ files, ∃ s, (i, s) ∈ d := by
  unfold allReadIds
  rw [List.mem_toFinset]
  induction files with
  | nil => simp
  | cons d rest ih =>
    simp only [List.foldr_cons, List.mem_append, ih, List.mem_cons, List.mem_map]
    constructor
    · rintro (⟨q, hq, rfl⟩ | ⟨d', hd', s, hs⟩)
      · exact ⟨d, Or.inl rfl, q.2, hq⟩
      · exact ⟨d', Or.inr hd', s, hs⟩
    · rintro ⟨d', rfl | hd', s, hs⟩
      · exact Or.inl ⟨(i, s), hs, rfl⟩
      · exact Or.inr ⟨d', hd', s, hs⟩

/-- C2: `identify`'s DuplicateSet is the union of all identity-hash keys minus
the representative values; the merged inverted dict holds exactly one
representative per distinct sequence hash; and every sequence hash seen in the
merged mappings keeps at least one identity hash carrying it out of the
DuplicateSet. -/
theorem identify_dupset_characterisation :
    (∀ files : List HashMapping, ((mergeInverted files).map Prod.fst).Nodup)
      ∧ (∀ files : List HashMapping,
          identifyDupIds files = allReadIds files \ representativeIds files)
      ∧ (∀ (files : List HashMapping) (s : SeqHash),
          (∃ d ∈ files, ∃ q ∈ d, q.2 = s) →
          ∃ i, (∃ d ∈ files, (i, s) ∈ d) ∧ i ∉ identifyDupIds files) := by
  refine ⟨mergeInverted_keys_nodup, fun _ => rfl, ?_⟩
  intro files s hseen
  have hkey : s ∈ (mergeInverted files).map Prod.fst :=
    mergeInverted_from_keys_seen hseen
  rcases List.mem_map.mp hkey with ⟨p, hp, hps⟩
  rcases mergeInverted_from_mem hp with h | ⟨d, hd, hpd⟩
  · simp at h
  · refine ⟨p.2, ⟨d, hd, by rwa [hps] at hpd⟩, ?_⟩
    intro hmem
    rw [identifyDupIds] at hmem
    rcases Finset.mem_sdiff.mp hmem with ⟨_, hnotrep⟩
    apply hnotrep
    unfold representativeIds
    rw [List.mem_toFinset]
    exact List.mem_map.mpr ⟨p, hp, rfl⟩

/-- Concrete witness for C2: two ids share sequence hash s1; the representative
of s1 stays out of the DuplicateSet. -/
theorem identify_dupset_characterisation_witness :
    (∃ d ∈ ([[("a", "s1"), ("b", "s1")]] : List HashMapping),
        ∃ q ∈ d, q.2 = "s1")
      ∧ ∃ i, (∃ d ∈ ([[("a", "s1"), ("b", "s1")]] : List HashMapping),
          (i, "s1") ∈ d) ∧ i ∉ identifyDupIds [[("a", "s1"), ("b", "s1")]] :=
  ⟨⟨[("a", "s1"), ("b", "s1")], by simp, ("a", "s1"), by simp, rfl⟩,
    identify_dupset_characterisation.2.2 [[("a", "s1"), ("b", "s1")]] "s1"
      ⟨[("a", "s1"), ("b", "s1")], by simp, ("a", "s1"), by simp, rfl⟩⟩

theorem seq_ne_of_single_pair (seqs : Fin 4 → String) (j k : Fin 4)
    (honly : ∀ p q : Fin 4, p < q → seqs p = seqs q → p = j ∧ q = k)
    (p q : Fin 4) (hpq : p < q) (hne : ¬(p = j ∧ q = k)) : seqs p ≠ seqs q :=
  fun h => hne (honly p q hpq h)

theorem ids_ne_of_inj (ids : Fin 4 → String) (hinj : Function.Injective ids)
    (p q : Fin 4) (hpq : p ≠ q) : ids p ≠ ids q :=
  fun h => hpq (hinj h)

theorem allReadIds_quad (ids seqs : Fin 4 → String) :
    allReadIds
        [[(ids 0, seqs 0), (ids 1, seqs 1), (ids 2, seqs 2), (ids 3, seqs 3)]]
      = [ids 0, ids 1, ids 2, ids 3].toFinset := by
  rw [allReadIds]
  simp only [List.foldr_cons, List.foldr_nil, List.map_cons, List.map_nil,
    List.append_nil]

/-- C7: on a single four-entry mapping in which exactly two identity hashes
share a sequence hash (all other sequence hashes distinct), `identify` returns
a DuplicateSet with exactly one element, and that element is one of the two
identity hashes sharing the sequence hash. -/
theorem identify_four_entry_single_duplicate
    (ids seqs : Fin 4 → String) (hinj : Function.Injective ids)
    (j k : Fin 4) (hjk : j < k) (hseq : seqs j = seqs k)
    (honly : ∀ p q : Fin 4, p < q → seqs p = seqs q → p = j ∧ q = k) :
    ∃ x, identifyDupIds
        [[(ids 0, seqs 0), (ids 1, seqs 1), (ids 2, seqs 2), (ids 3, seqs 3)]]
        = {x} ∧ (x = ids j ∨ x = ids k) := by
  fin_cases j <;> fin_cases k
  · exact absurd hjk (by decide)
  · refine ⟨ids 0, ?_, Or.inl rfl⟩
    have hs : seqs 0 = seqs 1 := hseq
    have ho : ∀ p q : Fin 4, p < q → seqs p = seqs q → p = 0 ∧ q = 1 := honly
    have e02 : seqs 0 ≠ seqs 2 :=
      seq_ne_of_single_pair seqs 0 1 ho 0 2 (by decide) (by decide)
    have e03 : seqs 0 ≠ seqs 3 :=
      seq_ne_of_single_pair seqs 0 1 ho 0 3 (by decide) (by decide)
    have e12 : seqs 1 ≠ seqs 2 :=
      seq_ne_of_single_pair seqs 0 1 ho 1 2 (by decide) (by decide)
    have e13 : seqs 1 ≠ seqs 3 :=
      seq_ne_of_single_pair seqs 0 1 ho 1 3 (by decide) (by decide)
    have e23 : seqs 2 ≠ seqs 3 :=
      seq_ne_of_single_pair seqs 0 1 ho 2 3 (by decide) (by decide)
    have i01 : ids 0 ≠ ids 1 := ids_ne_of_inj ids hinj 0 1 (by decide)
    have i02 : ids 0 ≠ ids 2 := ids_ne_of_inj ids hinj 0 2 (by decide)
    have i03 : ids 0 ≠ ids 3 := ids_ne_of_inj ids hinj 0 3 (by decide)
    have hmerge : mergeInverted
        [[(ids 0, seqs 0), (ids 1, seqs 1), (ids 2, seqs 2), (ids 3, seqs 3)]]
        = [(seqs 1, ids 1), (seqs 2, ids 2), (seqs 3, ids 3)] := by
      simp [mergeInverted, dictUpdate, invert_dict, dictInsert, hs,
        e02, e03, e12, e13, e23, Ne.symm e02, Ne.symm e03, Ne.symm e12, Ne.symm e13, Ne.symm e23]
    rw [identifyDupIds, representativeIds, hmerge, allReadIds_quad ids seqs]
    ext x
    rw [Finset.mem_sdiff, Finset.mem_singleton, List.mem_toFinset,
      List.mem_toFinset]
    simp only [List.map_cons, List.map_nil, List.mem_cons, List.not_mem_nil,
      or_false]
    constructor
    · rintro ⟨h1 | h1 | h1 | h1, h2⟩
      · exact h1
      · exact absurd (Or.inl h1) h2
      · exact absurd (Or.inr (Or.inl h1)) h2
      · exact absurd (Or.inr (Or.inr h1)) h2
    · rintro rfl
      refine ⟨Or.inl rfl, fun h => ?_⟩
      rcases h with h | h | h
      · exact i01 h
      · exact i02 h
      · exact i03 h
  · refine ⟨ids 0, ?_, Or.inl rfl⟩
    have hs : seqs 0 = seqs 2 := hseq
    have ho : ∀ p q : Fin 4, p < q → seqs p = seqs q → p = 0 ∧ q = 2 := honly
    have e01 : seqs 0 ≠ seqs 1 :=
      seq_ne_of_single_pair seqs 0 2 ho 0 1 (by decide) (by decide)
    have e03 : seqs 0 ≠ seqs 3 :=
      seq_ne_of_single_pair seqs 0 2 ho 0 3 (by decide) (by decide)
    have e12 : seqs 1 ≠ seqs 2 :=
      seq_ne_of_single_pair seqs 0 2 ho 1 2 (by decide) (by decide)
    have e13 : seqs 1 ≠ seqs 3 :=
      seq_ne_of_single_pair seqs 0 2 ho 1 3 (by decide) (by decide)
    have e23 : seqs 2 ≠ seqs 3 :=
      seq_ne_of_single_pair seqs 0 2 ho 2 3 (by decide) (by decide)
    have i01 : ids 0 ≠ ids 1 := ids_ne_of_inj ids hinj 0 1 (by decide)
    have i02 : ids 0 ≠ ids 2 := ids_ne_of_inj ids hinj 0 2 (by decide)
    have i03 : ids 0 ≠ ids 3 := ids_ne_of_inj ids hinj 0 3 (by decide)
    have hmerge : mergeInverted
        [[(ids 0, seqs 0), (ids 1, seqs 1), (ids 2, seqs 2), (ids 3, seqs 3)]]
        = [(seqs 2, ids 2), (seqs 1, ids 1), (seqs 3, ids 3)] := by
      simp [mergeInverted, dictUpdate, invert_dict, dictInsert, hs,
        e01, e03, e12, e13, e23, Ne.symm e01, Ne.symm e03, Ne.symm e12, Ne.symm e13, Ne.symm e23]
    rw [identifyDupIds, representativeIds, hmerge, allReadIds_quad ids seqs]
    ext x
    rw [Finset.mem_sdiff, Finset.mem_singleton, List.mem_toFinset,
      List.mem_toFinset]
    simp only [List.map_cons, List.map_nil, List.mem_cons, List.not_mem_nil,
      or_false]
    constructor
    · rintro ⟨h1 | h1 | h1 | h1, h2⟩
      · exact h1
      · exact absurd (Or.inr (Or.inl h1)) h2
      · exact absurd (Or.inl h1) h2
      · exact absurd (Or.inr (Or.inr h1)) h2
    · rintro rfl
      refine ⟨Or.inl rfl, fun h => ?_⟩
      rcases h with h | h | h
      · exact i02 h
      · exact i01 h
      · exact i03 h
  · refine ⟨ids 0, ?_, Or.inl rfl⟩
    have hs : seqs 0 = seqs 3 := hseq
    have ho : ∀ p q : Fin 4, p < q → seqs p = seqs q → p = 0 ∧ q = 3 := honly
    have e01 : seqs 0 ≠ seqs 1 :=
      seq_ne_of_single_pair seqs 0 3 ho 0 1 (by decide) (by decide)
    have e02 : seqs 0 ≠ seqs 2 :=
      seq_ne_of_single_pair seqs 0 3 ho 0 2 (by decide) (by decide)
    have e12 : seqs 1 ≠ seqs 2 :=
      seq_ne_of_single_pair seqs 0 3 ho 1 2 (by decide) (by decide)
    have e13 : seqs 1 ≠ seqs 3 :=
      seq_ne_of_single_pair seqs 0 3 ho 1 3 (by decide) (by decide)
    have e23 : seqs 2 ≠ seqs 3 :=
      seq_ne_of_single_pair seqs 0 3 ho 2 3 (by decide) (by decide)
    have i01 : ids 0 ≠ ids 1 := ids_ne_of_inj ids hinj 0 1 (by decide)
    have i02 : ids 0 ≠ ids 2 := ids_ne_of_inj ids hinj 0 2 (by decide)
    have i03 : ids 0 ≠ ids 3 := ids_ne_of_inj ids hinj 0 3 (by decide)
    have hmerge : mergeInverted
        [[(ids 0, seqs 0), (ids 1, seqs 1), (ids 2, seqs 2), (ids 3, seqs 3)]]
        = [(seqs 3, ids 3), (seqs 1, ids 1), (seqs 2, ids 2)] := by
      simp [mergeInverted, dictUpdate, invert_dict, dictInsert, hs,
        e01, e02, e12, e13, e23, Ne.symm e01, Ne.symm e02, Ne.symm e12, Ne.symm e13, Ne.symm e23]
    rw [identifyDupIds, representativeIds, hmerge, allReadIds_quad ids seqs]
    ext x
    rw [Finset.mem_sdiff, Finset.mem_singleton, List.mem_toFinset,
      List.mem_toFinset]
    simp only [List.map_cons, List.map_nil, List.mem_cons, List.not_mem_nil,
      or_false]
    constructor
    · rintro ⟨h1 | h1 | h1 | h1, h2⟩
      · exact h1
      · exact absurd (Or.inr (Or.inl h1)) h2
      · exact absurd (Or.inr (Or.inr h1)) h2
      · exact absurd (Or.inl h1) h2
    · rintro rfl
      refine ⟨Or.inl rfl, fun h => ?_⟩
      rcases h with h | h | h
      · exact i03 h
      · exact i01 h
      · exact i02 h
  · exact absurd hjk (by decide)
  · exact absurd hjk (by decide)
  · refine ⟨ids 1, ?_, Or.inl rfl⟩
    have hs : seqs 1 = seqs 2 := hseq
    have ho : ∀ p q : Fin 4, p < q → seqs p = seqs q → p = 1 ∧ q = 2 := honly
    have e01 : seqs 0 ≠ seqs 1 :=
      seq_ne_of_single_pair seqs 1 2 ho 0 1 (by decide) (by decide)
    have e02 : seqs 0 ≠ seqs 2 :=
      seq_ne_of_single_pair seqs 1 2 ho 0 2 (by decide) (by decide)
    have e03 : seqs 0 ≠ seqs 3 :=
      seq_ne_of_single_pair seqs 1 2 ho 0 3 (by decide) (by decide)
    have e13 : seqs 1 ≠ seqs 3 :=
      seq_ne_of_single_pair seqs 1 2 ho 1 3 (by decide) (by decide)
    have e23 : seqs 2 ≠ seqs 3 :=
      seq_ne_of_single_pair seqs 1 2 ho 2 3 (by decide) (by decide)
    have i10 : ids 1 ≠ ids 0 := ids_ne_of_inj ids hinj 1 0 (by decide)
    have i12 : ids 1 ≠ ids 2 := ids_ne_of_inj ids hinj 1 2 (by decide)
    have i13 : ids 1 ≠ ids 3 := ids_ne_of_inj ids hinj 1 3 (by decide)
    have hmerge : mergeInverted
        [[(ids 0, seqs 0), (ids 1, seqs 1), (ids 2, seqs 2), (ids 3, seqs 3)]]
        = [(seqs 0, ids 0), (seqs 2, ids 2), (seqs 3, ids 3)] := by
      simp [mergeInverted, dictUpdate, invert_dict, dictInsert, hs,
        e01, e02, e03, e13, e23, Ne.symm e01, Ne.symm e02, Ne.symm e03, Ne.symm e13, Ne.symm e23]
    rw [identifyDupIds, representativeIds, hmerge, allReadIds_quad ids seqs]
    ext x
    rw [Finset.mem_sdiff, Finset.mem_singleton, List.mem_toFinset,
      List.mem_toFinset]
    simp only [List.map_cons, List.map_nil, List.mem_cons, List.not_mem_nil,
      or_false]
    constructor
    · rintro ⟨h1 | h1 | h1 | h1, h2⟩
      · exact absurd (Or.inl h1) h2
      · exact h1
      · exact absurd (Or.inr (Or.inl h1)) h2
      · exact absurd (Or.inr (Or.inr h1)) h2
    · rintro rfl
      refine ⟨Or.inr (Or.inl rfl), fun h => ?_⟩
      rcases h with h | h | h
      · exact i10 h
      · exact i12 h
      · exact i13 h
  · refine ⟨ids 1, ?_, Or.inl rfl⟩
    have hs : seqs 1 = seqs 3 := hseq
    have ho : ∀ p q : Fin 4, p < q → seqs p = seqs q → p = 1 ∧ q = 3 := honly
    have e01 : seqs 0 ≠ seqs 1 :=
      seq_ne_of_single_pair seqs 1 3 ho 0 1 (by decide) (by decide)
    have e02 : seqs 0 ≠ seqs 2 :=
      seq_ne_of_single_pair seqs 1 3 ho 0 2 (by decide) (by decide)
    have e03 : seqs 0 ≠ seqs 3 :=
      seq_ne_of_single_pair seqs 1 3 ho 0 3 (by decide) (by decide)
    have e12 : seqs 1 ≠ seqs 2 :=
      seq_ne_of_single_pair seqs 1 3 ho 1 2 (by decide) (by decide)
    have e23 : seqs 2 ≠ seqs 3 :=
      seq_ne_of_single_pair seqs 1 3 ho 2 3 (by decide) (by decide)
    have i10 : ids 1 ≠ ids 0 := ids_ne_of_inj ids hinj 1 0 (by decide)
    have i12 : ids 1 ≠ ids 2 := ids_ne_of_inj ids hinj 1 2 (by decide)
    have i13 : ids 1 ≠ ids 3 := ids_ne_of_inj ids hinj 1 3 (by decide)
    have hmerge : mergeInverted
        [[(ids 0, seqs 0), (ids 1, seqs 1), (ids 2, seqs 2), (ids 3, seqs 3)]]
        = [(seqs 0, ids 0), (seqs 3, ids 3), (seqs 2, ids 2)] := by
      simp [mergeInverted, dictUpdate, invert_dict, dictInsert, hs,
        e01, e02, e03, e12, e23, Ne.symm e01, Ne.symm e02, Ne.symm e03, Ne.symm e12, Ne.symm e23]
    rw [identifyDupIds, representativeIds, hmerge, allReadIds_quad ids seqs]
    ext x
    rw [Finset.mem_sdiff, Finset.mem_singleton, List.mem_toFinset,
      List.mem_toFinset]
    simp only [List.map_cons, List.map_nil, List.mem_cons, List.not_mem_nil,
      or_false]
    constructor
    · rintro ⟨h1 | h1 | h1 | h1, h2⟩
      · exact absurd (Or.inl h1) h2
      · exact h1
      · exact absurd (Or.inr (Or.inr h1)) h2
      · exact absurd (Or.inr (Or.inl h1)) h2
    · rintro rfl
      refine ⟨Or.inr (Or.inl rfl), fun h => ?_⟩
      rcases h with h | h | h
      · exact i10 h
      · exact i13 h
      · exact i12 h
  · exact absurd hjk (by decide)
  · exact absurd hjk (by decide)
  · exact absurd hjk (by decide)
  · refine ⟨ids 2, ?_, Or.inl rfl⟩
    have hs : seqs 2 = seqs 3 := hseq
    have ho : ∀ p q : Fin 4, p < q → seqs p = seqs q → p = 2 ∧ q = 3 := honly
    have e01 : seqs 0 ≠ seqs 1 :=
      seq_ne_of_single_pair seqs 2 3 ho 0 1 (by decide) (by decide)
    have e02 : seqs 0 ≠ seqs 2 :=
      seq_ne_of_single_pair seqs 2 3 ho 0 2 (by decide) (by decide)
    have e03 : seqs 0 ≠ seqs 3 :=
      seq_ne_of_single_pair seqs 2 3 ho 0 3 (by decide) (by decide)
    have e12 : seqs 1 ≠ seqs 2 :=
      seq_ne_of_single_pair seqs 2 3 ho 1 2 (by decide) (by decide)
    have e13 : seqs 1 ≠ seqs 3 :=
      seq_ne_of_single_pair seqs 2 3 ho 1 3 (by decide) (by decide)
    have i20 : ids 2 ≠ ids 0 := ids_ne_of_inj ids hinj 2 0 (by decide)
    have i21 : ids 2 ≠ ids 1 := ids_ne_of_inj ids hinj 2 1 (by decide)
    have i23 : ids 2 ≠ ids 3 := ids_ne_of_inj ids hinj 2 3 (by decide)
    have hmerge : mergeInverted
        [[(ids 0, seqs 0), (ids 1, seqs 1), (ids 2, seqs 2), (ids 3, seqs 3)]]
        = [(seqs 0, ids 0), (seqs 1, ids 1), (seqs 3, ids 3)] := by
      simp [mergeInverted, dictUpdate, invert_dict, dictInsert, hs,
        e01, e02, e03, e12, e13, Ne.symm e01, Ne.symm e02, Ne.symm e03, Ne.symm e12, Ne.symm e13]
    rw [identifyDupIds, representativeIds, hmerge, allReadIds_quad ids seqs]
    ext x
    rw [Finset.mem_sdiff, Finset.mem_singleton, List.mem_toFinset,
      List.mem_toFinset]
    simp only [List.map_cons, List.map_nil, List.mem_cons, List.not_mem_nil,
      or_false]
    constructor
    · rintro ⟨h1 | h1 | h1 | h1, h2⟩
      · exact absurd (Or.inl h1) h2
      · exact absurd (Or.inr (Or.inl h1)) h2
      · exact h1
      · exact absurd (Or.inr (Or.inr h1)) h2
    · rintro rfl
      refine ⟨Or.inr (Or.inr (Or.inl rfl)), fun h => ?_⟩
      rcases h with h | h | h
      · exact i20 h
      · exact i21 h
      · exact i23 h
  · exact absurd hjk (by decide)
  · exact absurd hjk (by decide)
  · exact absurd hjk (by decide)
  · exact absurd hjk (by decide)

/-- Concrete witness for C7: the spec §8 scenario — four pairs, pair 2 and
pair 4 sequence-duplicates — leaves exactly one of their two ids duplicated. -/
theorem identify_four_entry_single_duplicate_witness :
    Function.Injective wIds ∧ (1 : Fin 4) < 3 ∧ wSeqs 1 = wSeqs 3
      ∧ (∀ p q : Fin 4, p < q → wSeqs p = wSeqs q → p = 1 ∧ q = 3)
      ∧ ∃ x, identifyDupIds
          [[(wIds 0, wSeqs 0), (wIds 1, wSeqs 1), (wIds 2, wSeqs 2),
            (wIds 3, wSeqs 3)]]
          = {x} ∧ (x = wIds 1 ∨ x = wIds 3) :=
  ⟨by decide, by decide, by decide, by decide,
    identify_four_entry_single_duplicate wIds wSeqs (by decide) 1 3 (by decide)
      (by decide) (by decide)⟩

